import Mathlib

/-!
Verification of the caching and request-coordination layer of the WIKIMCP
repository (`src/caching_service.py`, `src/config.py`,
`src/wikipedia_client.py`), as a shallow embedding in Lean 4.

Python values stored in a cache are modelled by `PyVal` (with an explicit
`PyVal.none` constructor, since Python's `dict.get` returns `None` for an
absent key and the code compares cached results against `None`). The
in-memory dictionary backing the `persist` cache variant is modelled as an
association list with Python `dict` semantics (insertion order preserved,
in-place update of an existing key).
-/

set_option autoImplicit false

/-- A Python value as stored in the cache: `None`, a string, or an integer
(other payload shapes are irrelevant to the claims). -/
inductive PyVal where
  | none
  | str (s : String)
  | int (n : Int)
  deriving DecidableEq, Repr

/-- The in-memory dictionary (`self.cache` for the `persist` variant):
an insertion-ordered association list with unique keys. -/
abbrev Dict := List (String × PyVal)

/-- `d.get(key)` with Python's default: returns the stored value, or `None`
when the key is absent (`caching_service.py` line 84). -/
def dictGet (d : Dict) (k : String) : PyVal :=
  match d.find? (fun p => p.1 == k) with
  | some p => p.2
  | Option.none => PyVal.none

/-- `key in d` (Python membership test). -/
def dictHasKey (d : Dict) (k : String) : Bool :=
  d.any (fun p => p.1 == k)

/-- `d[key] = value`: updates in place when the key exists, otherwise
appends (Python dicts preserve insertion order). -/
def dictSet (d : Dict) (k : String) (v : PyVal) : Dict :=
  if dictHasKey d k then
    d.map (fun p => if p.1 == k then (k, v) else p)
  else
    d ++ [(k, v)]

/-- `del d[key]` guarded by `if key in d` (`caching_service.py` lines
118-119): removes the entry when present, otherwise a no-op. -/
def dictDel (d : Dict) (k : String) : Dict :=
  d.filter (fun p => !(p.1 == k))

/-- Content of the persisted JSON file: either text that fails to parse as
JSON, or a serialized dictionary. -/
inductive FileContent where
  | corruptJson (raw : String)
  | jsonOf (d : Dict)
  deriving DecidableEq, Repr

/-- State of the persisted cache file on disk. -/
inductive FileState where
  | absent
  | present (c : FileContent)
  deriving DecidableEq, Repr

/-- Outcome of running a Python operation: a normal return, or a raised
exception carrying a message. -/
inductive OpOutcome (α : Type) where
  | ok (a : α)
  | raises (msg : String)
  deriving DecidableEq, Repr

/-- `json.loads` on the file's content: returns the dictionary for valid
JSON and raises for corrupt text. -/
def jsonLoads : FileContent → OpOutcome Dict
  | FileContent.corruptJson raw => OpOutcome.raises ("invalid JSON: " ++ raw)
  | FileContent.jsonOf d => OpOutcome.ok d

/-- The body of `CachingService._load_cache` (lines 178-191) before its
`except` clause: an absent file yields an empty cache, a present file is
read and parsed (which may raise). -/
def loadCacheBody : FileState → OpOutcome Dict
  | FileState.absent => OpOutcome.ok []
  | FileState.present c => jsonLoads c

/-- `CachingService._load_cache` (lines 173-194): the whole body is wrapped
in `try/except Exception`, and the handler logs and resets the cache to an
empty dict. -/
def loadCache (fs : FileState) : Dict :=
  match loadCacheBody fs with
  | OpOutcome.ok d => d
  | OpOutcome.raises _ => []

/-- State of a `CachingService` configured with the `persist` variant: its
in-memory dict together with the backing file at `self.cache_file`. -/
structure PersistState where
  mem : Dict
  file : FileState
  deriving DecidableEq, Repr

/-- Constructing a `persist` service (`__init__` lines 58-61 sets
`self.cache = {}`) followed by `await initialize()` (lines 68-72, which
runs `_load_cache`). The file itself is not modified by loading. -/
def persistInit (fs : FileState) : PersistState :=
  { mem := loadCache fs, file := fs }

/-- `CachingService.get` for the `persist` variant (line 84):
`return self.cache.get(key)` — a plain dict lookup, consulting no clock
and no expiry metadata. -/
def persistGet (s : PersistState) (k : String) : PyVal :=
  dictGet s.mem k

/-- `CachingService.set` for the `persist` variant (lines 100-103):
`self.cache[key] = value` with the synchronous save removed
(`# REMOVED sync save: self._save_cache()`); the file is untouched. -/
def persistSet (s : PersistState) (k : String) (v : PyVal) : PersistState :=
  { s with mem := dictSet s.mem k v }

/-- `CachingService.delete` for the `persist` variant (lines 117-120):
removes the key from the in-memory dict; the save call was removed, so the
file is untouched. -/
def persistDelete (s : PersistState) (k : String) : PersistState :=
  { s with mem := dictDel s.mem k }

/-- `CachingService.clear` for the `persist` variant (lines 135-137):
`self.cache.clear()`; the save call was removed, so the file is
untouched. -/
def persistClear (s : PersistState) : PersistState :=
  { s with mem := [] }

/-- `CachingService._save_cache` (lines 196-212): serializes the in-memory
dict to the backing file. Defined because it exists in the source, but no
code path in the repository ever invokes it. -/
def saveCache (s : PersistState) : PersistState :=
  { s with file := FileState.present (FileContent.jsonOf s.mem) }

/-- `CachingService.get` (lines 75-91): the backend access runs inside
`try/except Exception`; the handler logs and returns `None`. The argument
is the outcome of the underlying backend lookup (which may raise). -/
def serviceGet (backendResult : OpOutcome PyVal) : OpOutcome PyVal :=
  match backendResult with
  | OpOutcome.ok v => OpOutcome.ok v
  | OpOutcome.raises _ => OpOutcome.ok PyVal.none

/-- `CachingService.set` (lines 93-108): the backend store runs inside
`try/except Exception`; the handler logs and the method returns `None`
(the write is dropped). The argument is the outcome of the underlying
backend store (which may raise). -/
def serviceSet (backendResult : OpOutcome Unit) : OpOutcome Unit :=
  match backendResult with
  | OpOutcome.ok _ => OpOutcome.ok ()
  | OpOutcome.raises _ => OpOutcome.ok ()

/-- The backend object selected by `CachingService.__init__` (lines
44-64); the payload records the configuration handed to the backend. -/
inductive Backend where
  | ttlCache (maxsize ttl : Int)
  | lruCache (maxsize : Int)
  | diskCache (size_limit : Int)
  | persistCache (mem : Dict)
  deriving DecidableEq, Repr

/-- The dispatch in `CachingService.__init__` (lines 44-64): `cache_type`
is compared against the `CacheType` string-enum members (`"ttl"`, `"lru"`,
`"disk"`, `"persist"`, in source order) and any other value raises
`ValueError(f"Invalid cache type: \x7bcache_type\x7d")` at construction
time. -/
def mkCache (cache_type : String) (ttl maxsize : Int) : Except String Backend :=
  if cache_type = "ttl" then
    Except.ok (Backend.ttlCache maxsize ttl)
  else if cache_type = "lru" then
    Except.ok (Backend.lruCache maxsize)
  else if cache_type = "disk" then
    Except.ok (Backend.diskCache (maxsize * 1024 * 1024))
  else if cache_type = "persist" then
    Except.ok (Backend.persistCache [])
  else
    Except.error ("Invalid cache type: " ++ cache_type)

/-- `Settings.validate_cache_ttl` (`config.py` lines 65-70): raises
`ValueError("CACHE_TTL must be positive")` when `v <= 0`. -/
def validate_cache_ttl (v : Int) : Except String Int :=
  if v ≤ 0 then Except.error "CACHE_TTL must be positive" else Except.ok v

/-- `Settings.validate_cache_maxsize` (`config.py` lines 72-77): raises
`ValueError("CACHE_MAXSIZE must be positive")` when `v <= 0`. -/
def validate_cache_maxsize (v : Int) : Except String Int :=
  if v ≤ 0 then Except.error "CACHE_MAXSIZE must be positive" else Except.ok v

/-- Cache-key construction in the `cached` decorator (line 232):
`f"\x7bkey_prefix\x7d:\x7bfunc.__name__\x7d:\x7bstr(args)\x7d:\x7bstr(kwargs)\x7d"`. -/
def cacheKey (pfx fname args kwargs : String) : String :=
  pfx ++ ":" ++ fname ++ ":" ++ args ++ ":" ++ kwargs

/-- One call of the wrapper produced by the `cached` decorator (lines
230-245), over the in-memory dict backend: looks the key up; a non-`None`
cached result is returned without invoking the target (0 invocations);
otherwise the target is invoked, its result stored, and returned
(1 invocation). Returns (result, cache state after, target invocations). -/
def cachedWrapper (f : String → PyVal) (key : String) (x : String)
    (st : Dict) : PyVal × Dict × Nat :=
  let cached_result := dictGet st key
  if cached_result ≠ PyVal.none then
    (cached_result, st, 0)
  else
    let result := f x
    (result, dictSet st key result, 1)

/-- Two consecutive wrapper calls with identical arguments (hence the same
derived key), threading the cache state; returns the two results, the
final state, and the total number of target invocations. -/
def cachedTwice (f : String → PyVal) (key : String) (x : String)
    (st : Dict) : PyVal × PyVal × Dict × Nat :=
  let r1 := cachedWrapper f key x st
  let r2 := cachedWrapper f key x r1.2.1
  (r1.1, r2.1, r2.2.1, r1.2.2 + r2.2.2)

/-- State owned by a `WikipediaClient` for rate limiting
(`wikipedia_client.py` line 29): the wall-clock time recorded just before
the previous dispatch. -/
structure RateLimiterState where
  last_request_time : ℚ
  deriving DecidableEq, Repr

/-- `WikipediaClient._respect_rate_limit` (lines 47-55) under an idealized
clock (`time.sleep(s)` wakes exactly `s` seconds later): given the entry
time `now = time.time()`, sleeps out any remainder of the configured
delay, then records `self.last_request_time = time.time()` immediately
before dispatch. Returns (dispatch time, new state). -/
def respectRateLimit (delay : ℚ) (st : RateLimiterState) (now : ℚ) :
    ℚ × RateLimiterState :=
  let elapsed := now - st.last_request_time
  if elapsed < delay then
    let wake := now + (delay - elapsed)
    (wake, { last_request_time := wake })
  else
    (now, { last_request_time := now })

/-- Modelled from the spec: the `lru` variant delegates to
`cachetools.LRUCache`, a third-party dependency whose source is not part
of the repository. Per the spec (§4.1 BoundedLRU): no time-based expiry;
capacity eviction removes the least-recently-accessed entry; accessing an
entry via `get` refreshes its recency. The entry list is kept in recency
order: head = least recently used, last = most recently used. -/
structure LRUCache where
  maxsize : Nat
  entries : List (String × PyVal)
  deriving DecidableEq, Repr

/-- Key-equality test for LRU entries. -/
def keyEq (k : String) : (String × PyVal) → Bool := fun p => p.1 == k

/-- The keys of an entry list, in order. -/
def lruKeys (l : List (String × PyVal)) : List String := l.map Prod.fst

/-- A fresh, empty LRU cache of the given capacity (the `lru` branch of
`CachingService.__init__`, line 47). -/
def lruEmpty (maxsize : Nat) : LRUCache :=
  { maxsize := maxsize, entries := [] }

/-- Modelled from the spec: `LRUCache.__setitem__`. Storing under an
existing key updates it and refreshes its recency; storing a fresh key in
a full cache first evicts the least-recently-used entry (the head). -/
def lruSet (c : LRUCache) (k : String) (v : PyVal) : LRUCache :=
  if c.entries.any (keyEq k) then
    { c with entries := c.entries.filter (fun p => !(keyEq k p)) ++ [(k, v)] }
  else if c.maxsize ≤ c.entries.length then
    { c with entries := c.entries.tail ++ [(k, v)] }
  else
    { c with entries := c.entries ++ [(k, v)] }

/-- Modelled from the spec: `LRUCache.get` (as used by
`CachingService.get`, line 88). A hit returns the value and refreshes the
entry's recency; a miss returns `None` and leaves the cache unchanged. -/
def lruGet (c : LRUCache) (k : String) : PyVal × LRUCache :=
  match c.entries.find? (keyEq k) with
  | some p =>
      (p.2, { c with entries := c.entries.filter (fun q => !(keyEq k q)) ++ [p] })
  | Option.none => (PyVal.none, c)

/-- The value a `get` would return, discarding the state update. -/
def lruPeek (c : LRUCache) (k : String) : PyVal := (lruGet c k).1

/-- Folding `set` over a list of (key, value) pairs in order. -/
def lruInsertAll (c : LRUCache) (ps : List (String × PyVal)) : LRUCache :=
  ps.foldl (fun acc p => lruSet acc p.1 p.2) c

theorem keyEq_eq_true {k : String} {p : String × PyVal} :
    keyEq k p = true ↔ p.1 = k := by
  simp [keyEq]

theorem keyEq_eq_false {k : String} {p : String × PyVal} :
    keyEq k p = false ↔ p.1 ≠ k := by
  simp [keyEq]

theorem lru_find_absent {l : List (String × PyVal)} {k : String}
    (h : k ∉ lruKeys l) : l.find? (keyEq k) = Option.none := by
  induction l with
  | nil => rfl
  | cons p rest ih =>
      have hpk : p.1 ≠ k := by
        intro he
        exact h (by simp [lruKeys, he])
      have hrest : k ∉ lruKeys rest := by
        intro hm
        exact h (by simp [lruKeys] at hm ⊢; exact Or.inr hm)
      rw [List.find?_cons_of_neg, ih hrest]
      simp [keyEq, hpk]

theorem lru_find_mem {l : List (String × PyVal)} {k : String} {v : PyVal}
    (hnd : (lruKeys l).Nodup) (hm : (k, v) ∈ l) :
    l.find? (keyEq k) = some (k, v) := by
  induction l with
  | nil => cases hm
  | cons p rest ih =>
      rcases List.mem_cons.mp hm with he | hrest
      · subst he
        rw [List.find?_cons_of_pos]
        simp [keyEq]
      · have hk : k ∈ lruKeys rest := by
          simpa [lruKeys] using List.mem_map_of_mem Prod.fst hrest
        have hnd' : p.1 ∉ lruKeys rest ∧ (lruKeys rest).Nodup := by
          simpa [lruKeys] using hnd
        have hpk : p.1 ≠ k := fun he => hnd'.1 (he ▸ hk)
        rw [List.find?_cons_of_neg]
        · exact ih hnd'.2 hrest
        · simp [keyEq, hpk]

theorem lru_filter_absent {l : List (String × PyVal)} {k : String}
    (h : k ∉ lruKeys l) : l.filter (fun p => !(keyEq k p)) = l := by
  induction l with
  | nil => rfl
  | cons p rest ih =>
      have hpk : p.1 ≠ k := by
        intro he
        exact h (by simp [lruKeys, he])
      have hrest : k ∉ lruKeys rest := by
        intro hm
        exact h (by simp [lruKeys] at hm ⊢; exact Or.inr hm)
      simp only [List.filter_cons]
      rw [if_pos, ih hrest]
      simp [keyEq, hpk]

theorem lru_any_absent {l : List (String × PyVal)} {k : String}
    (h : k ∉ lruKeys l) : l.any (keyEq k) = false := by
  rw [List.any_eq_false]
  intro p hp he
  rw [keyEq_eq_true] at he
  exact h (he ▸ (by simpa [lruKeys] using List.mem_map_of_mem Prod.fst hp))

/-- Inserting a fresh key into a non-full cache appends it at the
most-recent end. -/
theorem lruSet_fresh {c : LRUCache} {k : String} {v : PyVal}
    (hk : k ∉ lruKeys c.entries) (hlen : c.entries.length < c.maxsize) :
    lruSet c k v = { c with entries := c.entries ++ [(k, v)] } := by
  unfold lruSet
  rw [if_neg, if_neg]
  · omega
  · simp [lru_any_absent hk]

/-- Folding inserts of fresh, pairwise-distinct keys that all fit within
capacity appends them in order. -/
theorem lruInsertAll_extend (ps : List (String × PyVal)) :
    ∀ (c : LRUCache), (lruKeys ps).Nodup →
      (∀ k ∈ lruKeys ps, k ∉ lruKeys c.entries) →
      c.entries.length + ps.length ≤ c.maxsize →
      lruInsertAll c ps = { c with entries := c.entries ++ ps } := by
  induction ps with
  | nil =>
      intro c _ _ _
      simp [lruInsertAll]
  | cons p rest ih =>
      intro c hnd hfresh hlen
      have hk : p.1 ∉ lruKeys c.entries :=
        hfresh p.1 (by simp [lruKeys])
      have hl : c.entries.length < c.maxsize := by
        simp only [List.length_cons] at hlen
        omega
      have hstep : lruSet c p.1 p.2 = { c with entries := c.entries ++ [p] } := by
        have := lruSet_fresh (c := c) (k := p.1) (v := p.2) hk hl
        simpa using this
      have hnd' : (lruKeys rest).Nodup := by
        simp only [lruKeys, List.map_cons, List.nodup_cons] at hnd
        exact hnd.2
      have hhead : p.1 ∉ lruKeys rest := by
        simp only [lruKeys, List.map_cons, List.nodup_cons] at hnd
        exact hnd.1
      calc lruInsertAll c (p :: rest)
          = lruInsertAll (lruSet c p.1 p.2) rest := rfl
        _ = lruInsertAll ({ c with entries := c.entries ++ [p] }) rest := by rw [hstep]
        _ = { c with entries := (c.entries ++ [p]) ++ rest } := by
              apply ih
              · exact hnd'
              · intro k hkr
                show k ∉ lruKeys (c.entries ++ [p])
                intro hmem
                rw [lruKeys, List.map_append, List.mem_append] at hmem
                have hkcons : k ∈ lruKeys (p :: rest) := by
                  rw [lruKeys, List.map_cons]
                  exact List.mem_cons_of_mem _ hkr
                rcases hmem with hc | hp2
                · exact hfresh k hkcons hc
                · have : k = p.1 := by simpa using hp2
                  exact hhead (this ▸ hkr)
              · show (c.entries ++ [p]).length + rest.length ≤ c.maxsize
                simp only [List.length_append, List.length_cons, List.length_nil] at *
                omega
        _ = { c with entries := c.entries ++ p :: rest } := by
              rw [List.append_assoc]
              rfl

theorem dictSet_cons_ne {p : String × PyVal} {rest : Dict} {k : String}
    {v : PyVal} (h : (p.1 == k) = false) :
    dictSet (p :: rest) k v = p :: dictSet rest k v := by
  by_cases hr : dictHasKey rest k = true
  · have hc : dictHasKey (p :: rest) k = true := by
      simp [dictHasKey, List.any_cons] at hr ⊢
      exact Or.inr hr
    simp [dictSet, hc, hr, h]
    intro he
    exact absurd he (by simpa using h)
  · have hr' : dictHasKey rest k = false := by
      simpa using hr
    have hc : dictHasKey (p :: rest) k = false := by
      simp only [dictHasKey, List.any_cons, h, Bool.false_or]
      simpa [dictHasKey] using hr'
    simp [dictSet, hc, hr']

theorem dictGet_dictSet_self (d : Dict) (k : String) (v : PyVal) :
    dictGet (dictSet d k v) k = v := by
  induction d with
  | nil => simp [dictSet, dictGet, dictHasKey]
  | cons p rest ih =>
      by_cases hpk : (p.1 == k) = true
      · have hc : dictHasKey (p :: rest) k = true := by
          simp [dictHasKey, List.any_cons, hpk]
        simp only [dictSet, hc, if_true, List.map_cons, hpk, if_pos]
        simp [dictGet, List.find?_cons_of_pos]
      · have hpk' : (p.1 == k) = false := by
          cases hb : (p.1 == k) with
          | true => exact absurd hb hpk
          | false => rfl
        rw [dictSet_cons_ne hpk']
        simp only [dictGet] at ih ⊢
        rw [List.find?_cons_of_neg]
        · exact ih
        · simp [hpk']

theorem dictHasKey_dictSet_self (d : Dict) (k : String) (v : PyVal) :
    dictHasKey (dictSet d k v) k = true := by
  induction d with
  | nil => simp [dictSet, dictHasKey]
  | cons p rest ih =>
      by_cases hpk : (p.1 == k) = true
      · have hc : dictHasKey (p :: rest) k = true := by
          simp [dictHasKey, List.any_cons, hpk]
        simp only [dictSet, hc, if_true, List.map_cons, hpk, if_pos]
        simp [dictHasKey, List.any_cons]
      · have hpk' : (p.1 == k) = false := by
          cases hb : (p.1 == k) with
          | true => exact absurd hb hpk
          | false => rfl
        rw [dictSet_cons_ne hpk']
        simp only [dictHasKey, List.any_cons, hpk', Bool.false_or]
        simpa [dictHasKey] using ih

/-- Claim C1: the spec says every mutating call (`set`, `delete`, `clear`)
on the `persist` backend triggers a full rewrite of the backing JSON file,
and after `clear()` the on-disk representation reflects the empty state.
The code violates this: `set`, `delete` and `clear` mutate only the
in-memory dict (the `_save_cache` calls were removed and nothing in the
repository ever invokes `_save_cache`), so the file never changes — after
`set` on a fresh directory no file exists, and after `clear` a previously
persisted non-empty file still holds its old entries. -/
theorem c1_persist_no_rewrite_bug :
    (persistSet (persistInit FileState.absent) "key1" (PyVal.str "value1")).file
        = FileState.absent
    ∧ (persistClear (persistSet (persistInit FileState.absent) "key1"
          (PyVal.str "value1"))).file = FileState.absent
    ∧ (persistClear (persistInit
          (FileState.present (FileContent.jsonOf [("a", PyVal.str "b")])))).file
        = FileState.present (FileContent.jsonOf [("a", PyVal.str "b")])
    ∧ (persistClear (persistInit
          (FileState.present (FileContent.jsonOf [("a", PyVal.str "b")])))).mem
        = [] :=
  ⟨rfl, rfl, rfl, rfl⟩

/-- Claim C2: the spec says a value written through one `persist`-backed
`CachingService` at directory `D` is readable from a freshly constructed
and initialized instance at the same `D`. The code violates this: the
write never reaches the file (no save is ever performed), so the fresh
instance loads an unchanged file and reports the key absent. -/
theorem c2_persist_durability_bug :
    persistGet (persistSet (persistInit FileState.absent) "x" (PyVal.str "y")) "x"
        = PyVal.str "y"
    ∧ (persistSet (persistInit FileState.absent) "x" (PyVal.str "y")).file
        = FileState.absent
    ∧ persistGet (persistInit
          (persistSet (persistInit FileState.absent) "x" (PyVal.str "y")).file) "x"
        = PyVal.none
    ∧ PyVal.none ≠ PyVal.str "y" := by
  refine ⟨?_, rfl, rfl, by decide⟩
  decide

/-- Claim C3: the spec says a `persist` backend with `ttl = T` returns a
stored value only at `t < stored_at + T` and reports it absent at
`t >= stored_at + T`. The code violates this for the `persist` variant:
`set` stores the bare value with no `stored_at`/`expires_at` metadata and
`get` is a plain dict lookup consulting no clock, so the value is
returned unconditionally at every later time. -/
theorem c3_persist_never_expires_bug :
    (persistSet (persistInit FileState.absent) "key1" (PyVal.str "value1")).mem
        = [("key1", PyVal.str "value1")]
    ∧ persistGet (persistSet (persistInit FileState.absent) "key1"
          (PyVal.str "value1")) "key1" = PyVal.str "value1" := by
  refine ⟨by decide, by decide⟩

/-- Claim C7: `CachingService.get` never raises (an internal failure is
treated as a miss returning `None` and logged) and `CachingService.set`
never propagates a failure (the write is silently dropped and logged). In
the embedding the whole backend access is wrapped in
`try/except Exception`, so every outcome of the underlying backend
operation, including a raised exception, produces a normal return. -/
theorem c7_get_set_never_raise :
    (∀ b : OpOutcome PyVal, ∃ v, serviceGet b = OpOutcome.ok v)
    ∧ (∀ b : OpOutcome Unit, serviceSet b = OpOutcome.ok ())
    ∧ (∀ msg : String, serviceGet (OpOutcome.raises msg)
        = OpOutcome.ok PyVal.none) := by
  refine ⟨?_, ?_, ?_⟩
  · intro b
    cases b with
    | ok v => exact ⟨v, rfl⟩
    | raises m => exact ⟨PyVal.none, rfl⟩
  · intro b
    cases b with
    | ok u => rfl
    | raises m => rfl
  · intro msg
    rfl

/-- Claim C8: constructing a `CachingService` with an unrecognized backend
variant raises `ValueError` at construction time (the dispatch is in
`__init__`, so recognized variants construct successfully and anything
else fails before first use), and `Settings` validation rejects a
non-positive `CACHE_TTL` or `CACHE_MAXSIZE` with a `ValueError`. -/
theorem c8_invalid_config_rejected (s : String) (t m : Int) :
    (s ≠ "ttl" → s ≠ "lru" → s ≠ "disk" → s ≠ "persist" →
      mkCache s t m = Except.error ("Invalid cache type: " ++ s))
    ∧ (t ≤ 0 → validate_cache_ttl t
        = Except.error "CACHE_TTL must be positive")
    ∧ (m ≤ 0 → validate_cache_maxsize m
        = Except.error "CACHE_MAXSIZE must be positive")
    ∧ mkCache "ttl" t m = Except.ok (Backend.ttlCache m t)
    ∧ mkCache "lru" t m = Except.ok (Backend.lruCache m)
    ∧ mkCache "disk" t m = Except.ok (Backend.diskCache (m * 1024 * 1024))
    ∧ mkCache "persist" t m = Except.ok (Backend.persistCache []) := by
  refine ⟨?_, ?_, ?_, rfl, rfl, rfl, rfl⟩
  · intro h1 h2 h3 h4
    simp [mkCache, h1, h2, h3, h4]
  · intro ht
    simp [validate_cache_ttl, ht]
  · intro hm
    simp [validate_cache_maxsize, hm]

/-- Witness for claim C8 at a concrete invalid configuration. -/
theorem c8_invalid_config_witness :
    mkCache "memcache" (-1) 0 = Except.error "Invalid cache type: memcache"
    ∧ validate_cache_ttl (-1) = Except.error "CACHE_TTL must be positive"
    ∧ validate_cache_maxsize 0
        = Except.error "CACHE_MAXSIZE must be positive" := by
  have h := c8_invalid_config_rejected "memcache" (-1) 0
  exact ⟨h.1 (by decide) (by decide) (by decide) (by decide),
    h.2.1 (by decide), h.2.2.1 (by decide)⟩

/-- Claim C9: for the `persist` backend, an absent, corrupt, or unreadable
JSON file at load time degrades the backend to an empty in-memory map
(logged, not fatal), and the service keeps operating: `_load_cache`
returns an empty dict for absent and corrupt files, the full dict for a
valid file, and initialization always yields a usable state. -/
theorem c9_load_degrades_to_empty (raw : String) (d : Dict) :
    loadCache FileState.absent = []
    ∧ loadCache (FileState.present (FileContent.corruptJson raw)) = []
    ∧ loadCache (FileState.present (FileContent.jsonOf d)) = d
    ∧ persistInit (FileState.present (FileContent.corruptJson raw))
        = { mem := [], file := FileState.present (FileContent.corruptJson raw) } :=
  ⟨rfl, rfl, rfl, rfl⟩

theorem respectRateLimit_single (delay : ℚ) (st : RateLimiterState)
    (now : ℚ) :
    (respectRateLimit delay st now).1 ≥ st.last_request_time + delay
    ∧ (respectRateLimit delay st now).2.last_request_time
        = (respectRateLimit delay st now).1 := by
  unfold respectRateLimit
  by_cases h : now - st.last_request_time < delay
  · simp only [h, if_pos]
    constructor
    · have : now + (delay - (now - st.last_request_time))
          = st.last_request_time + delay := by ring
      rw [this]
    · trivial
  · simp only [h, if_neg, not_false_eq_true]
    constructor
    · have : delay ≤ now - st.last_request_time := le_of_not_lt h
      linarith
    · trivial

/-- Claim C5: with a configured delay `d`, any two consecutive invocations
of the rate-limited operation dispatch at least `d` apart, measured from
the previous call's dispatch time, and `last_request_time` is recorded
after the wait, immediately before dispatch. Under an idealized exact
`sleep`, the second dispatch time is at least the first dispatch time
plus the delay, and the recorded state equals the dispatch time. -/
theorem c5_rate_limiter_spacing (delay : ℚ) (st0 : RateLimiterState)
    (now1 now2 : ℚ) :
    (respectRateLimit delay (respectRateLimit delay st0 now1).2 now2).1
        ≥ (respectRateLimit delay st0 now1).1 + delay
    ∧ (respectRateLimit delay st0 now1).2.last_request_time
        = (respectRateLimit delay st0 now1).1 := by
  have h1 := respectRateLimit_single delay st0 now1
  have h2 := respectRateLimit_single delay (respectRateLimit delay st0 now1).2 now2
  exact ⟨h1.2 ▸ h2.1, h1.2⟩

/-- Counterexample to claim C4 as stated: for the target function that
returns `None`, two identical calls through the `cached` wrapper invoke
the target twice, not exactly once — the stored `None` result is
indistinguishable from a miss on the second lookup. -/
theorem c4_counterexample :
    (cachedTwice (fun _ => PyVal.none)
        (cacheKey "test" "f" "(1,)" "\x7b\x7d") "(1,)" []).2.2.2 = 2
    ∧ (cachedTwice (fun _ => PyVal.none)
        (cacheKey "test" "f" "(1,)" "\x7b\x7d") "(1,)" []).2.2.2 ≠ 1 := by
  refine ⟨by decide, by decide⟩

/-- Claim C4, amended: for every target function `f` whose result at the
given arguments is not `None`, and a cache holding no entry for the
derived key, calling the wrapper produced by the `cached` decorator twice
with identical arguments invokes `f` exactly once: the first call invokes
the target and stores its result under the derived key, and the second
call is served from the cache without invoking the target. -/
theorem c4_memoizer_single_invocation (f : String → PyVal)
    (pfx fname args kwargs x : String) (st : Dict)
    (hmiss : dictGet st (cacheKey pfx fname args kwargs) = PyVal.none)
    (hres : f x ≠ PyVal.none) :
    (cachedTwice f (cacheKey pfx fname args kwargs) x st).2.2.2 = 1
    ∧ (cachedTwice f (cacheKey pfx fname args kwargs) x st).1 = f x
    ∧ (cachedTwice f (cacheKey pfx fname args kwargs) x st).2.1 = f x
    ∧ dictGet (cachedTwice f (cacheKey pfx fname args kwargs) x st).2.2.1
        (cacheKey pfx fname args kwargs) = f x := by
  have hstore := dictGet_dictSet_self st (cacheKey pfx fname args kwargs) (f x)
  have h1 : cachedWrapper f (cacheKey pfx fname args kwargs) x st
      = (f x, dictSet st (cacheKey pfx fname args kwargs) (f x), 1) := by
    simp [cachedWrapper, hmiss]
  have h2 : cachedWrapper f (cacheKey pfx fname args kwargs) x
        (dictSet st (cacheKey pfx fname args kwargs) (f x))
      = (f x, dictSet st (cacheKey pfx fname args kwargs) (f x), 0) := by
    simp [cachedWrapper, hstore, hres]
  refine ⟨?_, ?_, ?_, ?_⟩ <;> simp [cachedTwice, h1, h2, hstore]

/-- Witness for amended claim C4 at a concrete target and arguments. -/
theorem c4_memoizer_witness :
    (cachedTwice (fun _ => PyVal.str "result-arg1")
        (cacheKey "test" "test_func" "(arg1,)" "\x7b\x7d") "(arg1,)" []).2.2.2
      = 1 :=
  (c4_memoizer_single_invocation (fun _ => PyVal.str "result-arg1")
    "test" "test_func" "(arg1,)" "\x7b\x7d" "(arg1,)" []
    (by decide) (by decide)).1

/-- Claim C10 (implicit): a stored `None` is indistinguishable from a miss
at the public interface — `get` returns `None` alike for an absent key, a
stored `None`, and an internal error — and consequently the `cached`
wrapper re-invokes the target on every call whose cached result is
`None`; such results are stored (the key is present afterwards) but never
served from cache. -/
theorem c10_none_indistinguishable :
    (∀ k : String, dictGet [] k = PyVal.none)
    ∧ (∀ (d : Dict) (k : String), dictGet (dictSet d k PyVal.none) k
        = PyVal.none)
    ∧ (∀ msg : String, serviceGet (OpOutcome.raises msg)
        = OpOutcome.ok PyVal.none)
    ∧ (∀ (f : String → PyVal) (key x : String) (st : Dict),
        dictGet st key = PyVal.none →
          (cachedWrapper f key x st).2.2 = 1
          ∧ (cachedWrapper f key x st).2.1 = dictSet st key (f x)
          ∧ dictHasKey (dictSet st key PyVal.none) key = true) := by
  refine ⟨fun k => rfl, ?_, fun msg => rfl, ?_⟩
  · intro d k
    exact dictGet_dictSet_self d k PyVal.none
  · intro f key x st hmiss
    refine ⟨?_, ?_, dictHasKey_dictSet_self st key PyVal.none⟩
    · simp [cachedWrapper, hmiss]
    · simp [cachedWrapper, hmiss]

/-- Witness for claim C10 at a concrete `None`-returning target. -/
theorem c10_none_witness :
    (cachedWrapper (fun _ => PyVal.none) "k" "x" []).2.2 = 1
    ∧ dictHasKey (dictSet [] "k" PyVal.none) "k" = true := by
  have h := c10_none_indistinguishable.2.2.2
    (fun _ => PyVal.none) "k" "x" [] (by decide)
  exact ⟨h.1, h.2.2⟩

theorem lruSet_fresh_full {c : LRUCache} {k : String} {v : PyVal}
    (hk : k ∉ lruKeys c.entries) (hlen : c.maxsize ≤ c.entries.length) :
    lruSet c k v = { c with entries := c.entries.tail ++ [(k, v)] } := by
  unfold lruSet
  rw [if_neg, if_pos hlen]
  simp [lru_any_absent hk]

theorem lruPeek_absent {c : LRUCache} {k : String}
    (h : k ∉ lruKeys c.entries) : lruPeek c k = PyVal.none := by
  simp [lruPeek, lruGet, lru_find_absent h]

theorem lruPeek_mem {c : LRUCache} {k : String} {v : PyVal}
    (hnd : (lruKeys c.entries).Nodup) (hm : (k, v) ∈ c.entries) :
    lruPeek c k = v := by
  simp [lruPeek, lruGet, lru_find_mem hnd hm]

theorem lruKeys_nil : lruKeys ([] : List (String × PyVal)) = [] := rfl

theorem lruKeys_cons (p : String × PyVal) (l : List (String × PyVal)) :
    lruKeys (p :: l) = p.1 :: lruKeys l := rfl

theorem lruKeys_append (l1 l2 : List (String × PyVal)) :
    lruKeys (l1 ++ l2) = lruKeys l1 ++ lruKeys l2 :=
  List.map_append _ _ _

theorem lruInsertAll_append (c : LRUCache) (l1 l2 : List (String × PyVal)) :
    lruInsertAll c (l1 ++ l2) = lruInsertAll (lruInsertAll c l1) l2 := by
  simp [lruInsertAll, List.foldl_append]

/-- Claim C6: for a BoundedLRU (`lru`) backend with `maxsize = N`,
inserting `N+1` distinct keys with no intervening reads evicts exactly
the first-inserted key while all others remain retrievable; and a `get`
on the first-inserted key before the `(N+1)`th insert refreshes its
recency, so the unread second-inserted key is evicted instead. The
`N+1` distinct entries are given as `(k0, v0) :: mid ++ [(kN, vN)]`. -/
theorem c6_lru_eviction (N : Nat) (k0 kN : String) (v0 vN : PyVal)
    (mid : List (String × PyVal))
    (hnd : (lruKeys ((k0, v0) :: (mid ++ [(kN, vN)]))).Nodup)
    (hN : mid.length + 1 = N) :
    (lruPeek (lruInsertAll (lruEmpty N) ((k0, v0) :: (mid ++ [(kN, vN)]))) k0
        = PyVal.none
      ∧ ∀ p ∈ mid ++ [(kN, vN)],
          lruPeek (lruInsertAll (lruEmpty N)
            ((k0, v0) :: (mid ++ [(kN, vN)]))) p.1 = p.2)
    ∧ ∀ (k1 : String) (v1 : PyVal) (rest : List (String × PyVal)),
        mid = (k1, v1) :: rest →
          lruPeek (lruSet
              ((lruGet (lruInsertAll (lruEmpty N) ((k0, v0) :: mid)) k0).2)
              kN vN) k0 = v0
          ∧ lruPeek (lruSet
              ((lruGet (lruInsertAll (lruEmpty N) ((k0, v0) :: mid)) k0).2)
              kN vN) k1 = PyVal.none
          ∧ lruPeek (lruSet
              ((lruGet (lruInsertAll (lruEmpty N) ((k0, v0) :: mid)) k0).2)
              kN vN) kN = vN := by
  subst hN
  have e1 : lruKeys ((k0, v0) :: (mid ++ [(kN, vN)]))
      = k0 :: (lruKeys mid ++ [kN]) := by
    simp [lruKeys]
  rw [e1] at hnd
  rcases List.nodup_cons.mp hnd with ⟨h0, htail⟩
  rcases List.nodup_append.mp htail with ⟨hndmid, _, hdisj⟩
  have h0m : k0 ∉ lruKeys mid := fun h => h0 (List.mem_append_left _ h)
  have h0N : k0 ≠ kN := fun h => h0 (List.mem_append_right _ (by simp [h]))
  have hNm : kN ∉ lruKeys mid := fun h => (hdisj h) (by simp)
  have hfill : lruInsertAll (lruEmpty (mid.length + 1)) ((k0, v0) :: mid)
      = { maxsize := mid.length + 1, entries := (k0, v0) :: mid } := by
    have h := lruInsertAll_extend ((k0, v0) :: mid) (lruEmpty (mid.length + 1))
      (by
        rw [lruKeys_cons]
        exact List.nodup_cons.mpr ⟨h0m, hndmid⟩)
      (by
        intro k _ hmem
        simp [lruEmpty, lruKeys] at hmem)
      (by simp [lruEmpty])
    simpa [lruEmpty] using h
  have hfreshN : kN ∉ lruKeys ((k0, v0) :: mid) := by
    rw [lruKeys_cons]
    intro hmem
    rcases List.mem_cons.mp hmem with he | hm
    · have he' : kN = k0 := by simpa using he
      exact h0N he'.symm
    · exact hNm hm
  have hfull : lruSet
      ({ maxsize := mid.length + 1, entries := (k0, v0) :: mid } : LRUCache)
      kN vN
      = { maxsize := mid.length + 1, entries := mid ++ [(kN, vN)] } := by
    have h := lruSet_fresh_full
      (c := { maxsize := mid.length + 1, entries := (k0, v0) :: mid })
      (k := kN) (v := vN) hfreshN (by simp)
    simpa using h
  have hc : lruInsertAll (lruEmpty (mid.length + 1))
      ((k0, v0) :: (mid ++ [(kN, vN)]))
      = { maxsize := mid.length + 1, entries := mid ++ [(kN, vN)] } := by
    have hassoc : (k0, v0) :: (mid ++ [(kN, vN)])
        = ((k0, v0) :: mid) ++ [(kN, vN)] := by simp
    rw [hassoc, lruInsertAll_append, hfill]
    exact hfull
  constructor
  · refine ⟨?_, ?_⟩
    · rw [hc]
      apply lruPeek_absent
      show k0 ∉ lruKeys (mid ++ [(kN, vN)])
      rw [lruKeys_append]
      intro hmem
      rcases List.mem_append.mp hmem with hm | hm
      · exact h0m hm
      · exact h0N (by simpa [lruKeys] using hm)
    · intro p hp
      rw [hc]
      apply lruPeek_mem
      · show (lruKeys (mid ++ [(kN, vN)])).Nodup
        rw [lruKeys_append]
        exact htail
      · show (p.1, p.2) ∈ mid ++ [(kN, vN)]
        rw [Prod.mk.eta]
        exact hp
  · intro k1 v1 rest hmid
    subst hmid
    have h0r : k0 ∉ lruKeys rest :=
      fun h => h0m (List.mem_cons_of_mem _ h)
    have hk01 : k0 ≠ k1 :=
      fun h => h0m (by simp [lruKeys, h])
    have hN1 : kN ≠ k1 :=
      fun h => hNm (by simp [lruKeys, h])
    have hNr : kN ∉ lruKeys rest :=
      fun h => hNm (List.mem_cons_of_mem _ h)
    rcases List.nodup_cons.mp
        (show (k1 :: lruKeys rest).Nodup from hndmid) with ⟨h1r, hndrest⟩
    have hget : lruGet
        ({ maxsize := ((k1, v1) :: rest).length + 1,
           entries := (k0, v0) :: (k1, v1) :: rest } : LRUCache) k0
        = (v0, { maxsize := ((k1, v1) :: rest).length + 1,
                 entries := ((k1, v1) :: rest) ++ [(k0, v0)] }) := by
      have hfind : ((k0, v0) :: (k1, v1) :: rest).find? (keyEq k0)
          = some (k0, v0) :=
        List.find?_cons_of_pos _ (by simp [keyEq])
      have hfilter : ((k0, v0) :: (k1, v1) :: rest).filter
          (fun q => !(keyEq k0 q)) = (k1, v1) :: rest := by
        have hhead : (fun q => !(keyEq k0 q)) ((k0, v0) : String × PyVal)
            = false := by simp [keyEq]
        rw [List.filter_cons_of_neg]
        · exact lru_filter_absent h0m
        · simpa using hhead
      simp [lruGet, hfind, hfilter]
    have hfreshN2 : kN ∉ lruKeys (((k1, v1) :: rest) ++ [(k0, v0)]) := by
      rw [lruKeys_append, lruKeys_cons]
      intro hmem
      rcases List.mem_append.mp hmem with hm | hm
      · rcases List.mem_cons.mp hm with he | hm2
        · have he' : kN = k1 := by simpa using he
          exact hN1 he'
        · exact hNr hm2
      · have he' : kN = k0 := by simpa [lruKeys] using hm
        exact h0N he'.symm
    have hset := lruSet_fresh_full
      (c := { maxsize := ((k1, v1) :: rest).length + 1,
              entries := ((k1, v1) :: rest) ++ [(k0, v0)] })
      (k := kN) (v := vN) hfreshN2 (by simp)
    have hstate : lruSet
        ((lruGet (lruInsertAll (lruEmpty (((k1, v1) :: rest).length + 1))
          ((k0, v0) :: (k1, v1) :: rest)) k0).2) kN vN
        = { maxsize := ((k1, v1) :: rest).length + 1,
            entries := (rest ++ [(k0, v0)]) ++ [(kN, vN)] } := by
      rw [hfill, hget]
      simpa using hset
    have hndfin : (lruKeys ((rest ++ [(k0, v0)]) ++ [(kN, vN)])).Nodup := by
      rw [lruKeys_append, lruKeys_append, lruKeys_cons, lruKeys_nil,
        lruKeys_cons, lruKeys_nil]
      apply List.nodup_append.mpr
      refine ⟨List.nodup_append.mpr ⟨hndrest, List.nodup_singleton _, ?_⟩,
        List.nodup_singleton _, ?_⟩
      · intro a ha hb
        have hak : a = k0 := by simpa using hb
        exact h0r (hak ▸ ha)
      · intro a ha hb
        have haN : a = kN := by simpa using hb
        rcases List.mem_append.mp ha with hm | hm
        · exact hNr (haN ▸ hm)
        · have hak : a = k0 := by simpa using hm
          exact h0N (by rw [← hak, haN])
    refine ⟨?_, ?_, ?_⟩
    · rw [hstate]
      apply lruPeek_mem hndfin
      exact List.mem_append_left _ (List.mem_append_right _ (by simp))
    · rw [hstate]
      apply lruPeek_absent
      show k1 ∉ lruKeys ((rest ++ [(k0, v0)]) ++ [(kN, vN)])
      rw [lruKeys_append, lruKeys_append]
      intro hmem
      rcases List.mem_append.mp hmem with hm | hm
      · rcases List.mem_append.mp hm with hm2 | hm2
        · exact h1r hm2
        · have he' : k1 = k0 := by simpa [lruKeys] using hm2
          exact hk01 he'.symm
      · have he' : k1 = kN := by simpa [lruKeys] using hm
        exact hN1 he'.symm
    · rw [hstate]
      apply lruPeek_mem hndfin
      exact List.mem_append_right _ (by simp)

/-- Witness for claim C6 at the spec's concrete scenario:
`maxsize = 2`, inserting a, b, c evicts a; reading a before inserting c
evicts b instead. -/
theorem c6_lru_eviction_witness :
    lruPeek (lruInsertAll (lruEmpty 2)
        [("a", PyVal.int 1), ("b", PyVal.int 2), ("c", PyVal.int 3)]) "a"
      = PyVal.none
    ∧ lruPeek (lruInsertAll (lruEmpty 2)
        [("a", PyVal.int 1), ("b", PyVal.int 2), ("c", PyVal.int 3)]) "b"
      = PyVal.int 2
    ∧ lruPeek (lruInsertAll (lruEmpty 2)
        [("a", PyVal.int 1), ("b", PyVal.int 2), ("c", PyVal.int 3)]) "c"
      = PyVal.int 3
    ∧ lruPeek (lruSet ((lruGet (lruInsertAll (lruEmpty 2)
        [("a", PyVal.int 1), ("b", PyVal.int 2)]) "a").2) "c"
        (PyVal.int 3)) "b" = PyVal.none := by
  have h := c6_lru_eviction 2 "a" "c" (PyVal.int 1) (PyVal.int 3)
    [("b", PyVal.int 2)] (by decide) (by decide)
  refine ⟨h.1.1, ?_, ?_, ?_⟩
  · exact h.1.2 ("b", PyVal.int 2) (by simp)
  · exact h.1.2 ("c", PyVal.int 3) (by simp)
  · exact (h.2 "b" (PyVal.int 2) [] rfl).2.1
